import Mathlib

/-!
Verification of `fix_ai_calls.py`, a script that reads one TypeScript file,
applies a fixed sequence of textual substitutions, and writes the result back.

The document is modelled as a `List Char`.  Python's `re.sub` with the two
literal patterns of the script and `str.replace` both replace the leftmost
non-overlapping occurrences scanning left to right; they are embedded as the
fuel-structural function `subAux` / `subst`.  The one genuine regular
expression, `model: ['"]gemini-[^'",]+['"],\s*`, is deterministic (the only
choice point, `[^'",]+`, is greedy and cannot backtrack into a successful
match, because the character class excludes both possible closing quotes), so
it is embedded as the total matcher `matchModel` together with the scanner
`stripAux` that mirrors `re.sub`'s replace-with-empty semantics.
-/

set_option maxRecDepth 40000

namespace FixAi

/-- The characters matched by Python's `\s` on `str` patterns
(Unicode whitespace). -/
def isPySpace (c : Char) : Bool :=
  c = ' ' || c = '\t' || c = '\n' || c = '\r' || c = '\x0b' || c = '\x0c' ||
  c = '\x1c' || c = '\x1d' || c = '\x1e' || c = '\x1f' || c = '\x85' || c = '\xa0' ||
  c = '\u1680' || (0x2000 ≤ c.toNat && c.toNat ≤ 0x200a) ||
  c = '\u2028' || c = '\u2029' || c = '\u202f' || c = '\u205f' || c = '\u3000'

/-- The characters matched by the class `['"]`. -/
def isQuote (c : Char) : Bool := c = '\'' || c = '"'

/-- The characters matched by the class `[^'",]`. -/
def isBodyChar (c : Char) : Bool := !(c = '\'' || c = '"' || c = ',')

/-- Replace the leftmost non-overlapping occurrences of `p` by `r`,
scanning left to right; the `Nat` argument is structural fuel (one unit per
scanned position), always called with at least the length of the document. -/
def subAux (p r : List Char) : Nat → List Char → List Char
  | _, [] => []
  | 0, s => s
  | fuel+1, c :: cs =>
    if p.isPrefixOf (c :: cs) then r ++ subAux p r fuel (List.drop (p.length - 1) cs)
    else c :: subAux p r fuel cs

/-- `re.sub` with a literal pattern `p` and literal replacement `r`
(also the semantics of `str.replace`). -/
def subst (p r s : List Char) : List Char := subAux p r s.length s

/-- The literal head `model: ` of the stripping regex. -/
def mLit : List Char := ("model: ").toList

/-- The literal `gemini-` inside the stripping regex. -/
def gLit : List Char := ("gemini-").toList

/-- Stage 4 of the stripping regex: after the closing quote, a literal `,`
followed by the greedy `\s*`; `k` is the length of the `[^'",]+` run. -/
def matchTail3 : List Char → Nat → Option Nat
  | [], _ => none
  | e :: s5, k =>
    if e = ',' then some (17 + k + (s5.takeWhile isPySpace).length) else none

/-- Stage 3 of the stripping regex: the greedy `[^'",]+` run (`body`,
required nonempty) must be followed by a `['"]` closing quote. -/
def matchBody : List Char → List Char → Option Nat
  | _, [] => none
  | body, q2 :: s4 =>
    if body.isEmpty then none
    else if isQuote q2 then matchTail3 s4 body.length
    else none

/-- Stage 2 of the stripping regex: split the text after `gemini-` into its
maximal `[^'",]` run and the remainder. -/
def matchTail2 (s3 : List Char) : Option Nat :=
  matchBody (s3.takeWhile isBodyChar) (s3.dropWhile isBodyChar)

/-- Stage 1 of the stripping regex: a `['"]` opening quote, then the literal
`gemini-`. -/
def matchTail1 : List Char → Option Nat
  | [] => none
  | q :: s2 =>
    if isQuote q then
      if gLit.isPrefixOf s2 then matchTail2 (s2.drop 7) else none
    else none

/-- Attempt to match the regex `model: ['"]gemini-[^'",]+['"],\s*` at the
head of `s`; returns the length of the (greedy, deterministic) match. -/
def matchModel (s : List Char) : Option Nat :=
  if mLit.isPrefixOf s then matchTail1 (s.drop 7) else none

/-- The `re.sub(r'model: [\'"]gemini-[^\'",]+[\'"],\s*', '', content)` scanner:
at each position, either remove a match and continue after it, or keep the
character. -/
def stripAux : Nat → List Char → List Char
  | _, [] => []
  | 0, s => s
  | fuel+1, c :: cs =>
    match matchModel (c :: cs) with
    | some n => stripAux fuel (List.drop (n - 1) cs)
    | none => c :: stripAux fuel cs

/-- Step 5 of the script: strip inline `model: "gemini-…",` parameters. -/
def stripModelParam (s : List Char) : List Char := stripAux s.length s

/-- The search pattern of the two generation-call rewrites (lines 11 and 18). -/
def genCallPat : List Char :=
  ("const response = await ai.models.generateContent(").toList

/-- The replacement of the first rewrite (line 12, eight-space indentation). -/
def genCallRepl1 : List Char :=
  ("const model = ai.getGenerativeModel(\x7b model: \"gemini-2.0-flash-exp\" \x7d);\n        const response = await model.generateContent(").toList

/-- The replacement of the second rewrite (line 19, five-space indentation). -/
def genCallRepl2 : List Char :=
  ("const model = ai.getGenerativeModel(\x7b model: \"gemini-2.0-flash-exp\" \x7d);\n     const response = await model.generateContent(").toList

/-- The five enum-like tokens replaced by lines 24-28, in source order. -/
def typeTok : Fin 5 → List Char
  | 0 => ("Type.OBJECT").toList
  | 1 => ("Type.STRING").toList
  | 2 => ("Type.ARRAY").toList
  | 3 => ("Type.INTEGER").toList
  | 4 => ("Type.BOOLEAN").toList

/-- The five quoted string replacements of lines 24-28, in source order. -/
def typeRepl : Fin 5 → List Char
  | 0 => ("\"object\"").toList
  | 1 => ("\"string\"").toList
  | 2 => ("\"array\"").toList
  | 3 => ("\"integer\"").toList
  | 4 => ("\"boolean\"").toList

/-- Lines 24-28: the five sequential literal replacements. -/
def enumFix (s : List Char) : List Char :=
  subst (typeTok 4) (typeRepl 4) <|
    subst (typeTok 3) (typeRepl 3) <|
      subst (typeTok 2) (typeRepl 2) <|
        subst (typeTok 1) (typeRepl 1) <|
          subst (typeTok 0) (typeRepl 0) s

/-- The full transformation pipeline of the script (lines 10-31):
rewrite, rewrite again, normalize the five enum tokens, strip inline model
parameters. -/
def fixAiCalls (s : List Char) : List Char :=
  stripModelParam (enumFix (subst genCallPat genCallRepl2 (subst genCallPat genCallRepl1 s)))

/-- A filesystem: a partial map from paths to text contents. -/
structure FS where
  files : String → Option (List Char)

/-- The single error kind of the script: an I/O failure. -/
inductive IOErr
  | ioError
deriving DecidableEq

/-- The hardcoded path read and written by the script (lines 6 and 34). -/
def targetPath : String := "src/IDE/services/aiService.ts"

/-- The whole run: read the target file (aborting with `IOError` and touching
nothing when it is absent), transform, write back to the same path. -/
def runScript (fs : FS) : Option IOErr × FS :=
  match fs.files targetPath with
  | none => (some IOErr.ioError, fs)
  | some content =>
    (none, ⟨fun p => if p = targetPath then some (fixAiCalls content) else fs.files p⟩)

/-! ### Generic list facts -/

/-- Bridge from the boolean `isPrefixOf` to the `<+:` relation. -/
lemma isPre_eq {l₁ l₂ : List Char} : l₁.isPrefixOf l₂ = true ↔ l₁ <+: l₂ :=
  List.isPrefixOf_iff_prefix

/-- Two prefixes of the same list are comparable. -/
lemma preTotal {l₁ l₂ l₃ : List Char} (h₁ : l₁ <+: l₃) (h₂ : l₂ <+: l₃) :
    l₁ <+: l₂ ∨ l₂ <+: l₁ :=
  List.prefix_or_prefix_of_prefix h₁ h₂

lemma drop_append_le {z : List Char} :
    ∀ {x : List Char} {n : Nat}, n ≤ x.length → (x ++ z).drop n = x.drop n ++ z := by
  intro x
  induction x with
  | nil =>
    intro n h
    simp at h
    subst h
    rfl
  | cons c x ih =>
    intro n h
    cases n with
    | zero => rfl
    | succ n => simpa using ih (Nat.le_of_succ_le_succ h)

lemma infix_append_left (r : List Char) {w t : List Char} (h : w <:+: t) : w <:+: r ++ t := by
  obtain ⟨a, b, rfl⟩ := h
  exact ⟨r ++ a, b, by simp⟩

lemma infix_cons_of {c : Char} {w t : List Char} (h : w <:+: t) : w <:+: c :: t :=
  infix_append_left [c] h

lemma infix_of_drop {w s : List Char} {n : Nat} (h : w <:+: s.drop n) : w <:+: s :=
  h.trans (List.drop_suffix n s).isInfix

/-- Splitting a prefix of an append. -/
lemma pre_append_split {z : List Char} :
    ∀ {w x : List Char}, w <+: x ++ z → w <+: x ∨ (x <+: w ∧ w.drop x.length <+: z) := by
  intro w x
  induction x generalizing w with
  | nil => intro h; exact Or.inr ⟨⟨w, rfl⟩, h⟩
  | cons a x ih =>
    intro h
    cases w with
    | nil => exact Or.inl ⟨a :: x, rfl⟩
    | cons b w =>
      rw [List.cons_append, List.cons_prefix_cons] at h
      obtain ⟨rfl, h⟩ := h
      rcases ih h with h' | ⟨h₁, h₂⟩
      · exact Or.inl (by simpa [List.cons_prefix_cons] using h')
      · exact Or.inr ⟨by simpa [List.cons_prefix_cons] using h₁, by simpa using h₂⟩

/-- Splitting a suffix of an append. -/
lemma suf_append_split {z : List Char} :
    ∀ {t x : List Char}, t <:+ x ++ z →
      t <:+ z ∨ ∃ t₁, t₁ ≠ [] ∧ t = t₁ ++ z ∧ t₁ <:+ x := by
  intro t x
  induction x generalizing t with
  | nil => intro h; exact Or.inl h
  | cons a x ih =>
    intro h
    rw [List.cons_append, List.suffix_cons_iff] at h
    rcases h with rfl | h
    · exact Or.inr ⟨a :: x, by simp, by simp, List.suffix_rfl⟩
    · rcases ih h with h' | ⟨t₁, h₁, h₂, h₃⟩
      · exact Or.inl h'
      · exact Or.inr ⟨t₁, h₁, h₂, h₃.trans (List.suffix_cons a x)⟩

/-- Splitting an occurrence inside an append: it lies in the left part, in the
right part, or properly straddles the boundary. -/
lemma infix_append_split {w x z : List Char} (h : w <:+: x ++ z) :
    w <:+: x ∨ w <:+: z ∨
      ∃ w₁ w₂, w = w₁ ++ w₂ ∧ w₁ ≠ [] ∧ w₂ ≠ [] ∧ w₁ <:+ x ∧ w₂ <+: z := by
  rw [List.infix_iff_prefix_suffix] at h
  obtain ⟨t, hwt, hts⟩ := h
  rcases suf_append_split hts with htz | ⟨t₁, ht₁ne, rfl, ht₁x⟩
  · exact Or.inr (Or.inl (List.infix_iff_prefix_suffix.mpr ⟨t, hwt, htz⟩))
  rcases pre_append_split hwt with hw₁ | ⟨h₁w, h₂z⟩
  · exact Or.inl (List.infix_iff_prefix_suffix.mpr ⟨t₁, hw₁, ht₁x⟩)
  by_cases hlen : w.length ≤ t₁.length
  · have : w = t₁ := (h₁w.eq_of_length_le hlen).symm
    subst this
    exact Or.inl (List.infix_iff_prefix_suffix.mpr ⟨w, List.prefix_rfl, ht₁x⟩)
  · obtain ⟨u, hu⟩ := h₁w
    refine Or.inr (Or.inr ⟨t₁, w.drop t₁.length, ?_, ht₁ne, ?_, ht₁x, h₂z⟩)
    · rw [← hu, List.drop_left]
    · intro hnil
      have := congrArg List.length hnil
      simp at this
      omega

/-! ### Generic facts about the literal replace-all `subAux` -/

section SubAux

variable (p r : List Char)

@[simp] lemma subAux_nil (f : Nat) : subAux p r f [] = [] := by
  cases f <;> rfl

lemma subAux_fuel (hp : p ≠ []) :
    ∀ (f₁ f₂ : Nat) (s : List Char), s.length ≤ f₁ → s.length ≤ f₂ →
      subAux p r f₁ s = subAux p r f₂ s := by
  intro f₁
  induction f₁ with
  | zero =>
    intro f₂ s h₁ _
    cases s with
    | nil => cases f₂ <;> rfl
    | cons c cs => simp at h₁
  | succ f₁ ih =>
    intro f₂ s h₁ h₂
    cases s with
    | nil => cases f₂ <;> rfl
    | cons c cs =>
      cases f₂ with
      | zero => simp at h₂
      | succ f₂ =>
        simp only [subAux]
        have hplen : 1 ≤ p.length := by
          cases p with
          | nil => exact absurd rfl hp
          | cons a q => simp
        by_cases hm : p.isPrefixOf (c :: cs)
        · rw [if_pos hm, if_pos hm]
          have hd : (List.drop (p.length - 1) cs).length ≤ f₁ := by
            simp only [List.length_drop]
            simp at h₁
            omega
          have hd₂ : (List.drop (p.length - 1) cs).length ≤ f₂ := by
            simp only [List.length_drop]
            simp at h₂
            omega
          rw [ih f₂ _ hd hd₂]
        · rw [if_neg hm, if_neg hm]
          have hd : cs.length ≤ f₁ := by simp at h₁; omega
          have hd₂ : cs.length ≤ f₂ := by simp at h₂; omega
          rw [ih f₂ _ hd hd₂]

/-- When the pattern occurs nowhere, the replacement is the identity. -/
lemma sub_noop :
    ∀ (f : Nat) (s : List Char), s.length ≤ f → ¬ p <:+: s → subAux p r f s = s := by
  intro f
  induction f with
  | zero =>
    intro s hl _
    cases s with
    | nil => rfl
    | cons c cs => simp at hl
  | succ f ih =>
    intro s hl hno
    cases s with
    | nil => rfl
    | cons c cs =>
      have hm : ¬ p.isPrefixOf (c :: cs) = true := by
        intro hm
        exact hno (isPre_eq.mp hm).isInfix
      simp only [subAux]
      rw [if_neg hm, ih cs (by simp at hl; omega) (fun h => hno (infix_cons_of h))]

/-- Prefix reflection: if every nonempty suffix of `q` is prefix-incomparable
with the replacement `r`, then a nonempty suffix of `q` that is a prefix of a
replaced document was already a prefix of the original document. -/
lemma reflectPre {q : List Char}
    (h₃ : ∀ u, u ≠ [] → u <:+ q → ¬ u <+: r ∧ ¬ r <+: u) :
    ∀ (f : Nat) (t u : List Char), t.length ≤ f → u ≠ [] → u <:+ q →
      u <+: subAux p r f t → u <+: t := by
  intro f
  induction f with
  | zero =>
    intro t u hl hne _ hu
    cases t with
    | nil => simpa [subAux] using hu
    | cons c cs => simp at hl
  | succ f ih =>
    intro t u hl hne hsuf hu
    cases t with
    | nil => simpa [subAux] using hu
    | cons c cs =>
      simp only [subAux] at hu
      by_cases hm : p.isPrefixOf (c :: cs)
      · rw [if_pos hm] at hu
        have h₂ : r <+: r ++ subAux p r f (List.drop (p.length - 1) cs) :=
          List.prefix_append r _
        rcases preTotal hu h₂ with h' | h'
        · exact absurd h' (h₃ u hne hsuf).1
        · exact absurd h' (h₃ u hne hsuf).2
      · rw [if_neg hm] at hu
        cases u with
        | nil => exact absurd rfl hne
        | cons b u' =>
          rw [List.cons_prefix_cons] at hu
          obtain ⟨rfl, hu'⟩ := hu
          cases u' with
          | nil => simp
          | cons d u'' =>
            have hsuf' : (d :: u'') <:+ q := (List.suffix_cons b _).trans hsuf
            have := ih cs (d :: u'') (by simp at hl; omega) (by simp) hsuf' hu'
            simpa [List.cons_prefix_cons] using this

/-- The replaced document contains no occurrence of the pattern, provided the
replacement does not contain or overlap it. -/
lemma sub_no_self (hp : p ≠ [])
    (h₁ : ¬ p <:+: r)
    (h₂ : ∀ x, x ≠ [] → x <:+ r → ¬ x <+: p)
    (h₃ : ∀ u, u ≠ [] → u <:+ p → u ≠ p → ¬ u <+: r ∧ ¬ r <+: u) :
    ∀ (f : Nat) (s : List Char), s.length ≤ f → ¬ p <:+: subAux p r f s := by
  intro f
  induction f with
  | zero =>
    intro s hl h
    cases s with
    | nil =>
      rw [subAux_nil] at h
      exact hp (List.eq_nil_of_infix_nil h)
    | cons c cs => simp at hl
  | succ f ih =>
    intro s hl h
    cases s with
    | nil =>
      rw [subAux_nil] at h
      exact hp (List.eq_nil_of_infix_nil h)
    | cons c cs =>
      simp only [subAux] at h
      by_cases hm : p.isPrefixOf (c :: cs)
      · rw [if_pos hm] at h
        rcases infix_append_split h with h' | h' | ⟨w₁, w₂, heq, hw₁ne, hw₂ne, hw₁r, hw₂⟩
        · exact h₁ h'
        · exact ih _ (by simp at hl; simp [List.length_drop]; omega) h'
        · exact h₂ w₁ hw₁ne hw₁r ⟨w₂, heq.symm⟩
      · rw [if_neg hm] at h
        rcases List.infix_cons_iff.mp h with h' | h'
        · cases p with
          | nil => exact hp rfl
          | cons a q =>
            rw [List.cons_prefix_cons] at h'
            obtain ⟨rfl, hq⟩ := h'
            cases q with
            | nil =>
              exact hm (isPre_eq.mpr (by simp))
            | cons d q' =>
              have h₃' : ∀ u, u ≠ [] → u <:+ (d :: q') → ¬ u <+: r ∧ ¬ r <+: u := by
                intro u hne hsuf
                refine h₃ u hne (hsuf.trans (List.suffix_cons a (d :: q'))) ?_
                intro hup
                have h1 := hsuf.length_le
                have h2 := congrArg List.length hup
                simp at h1 h2
                omega
              have := reflectPre (a :: d :: q') r h₃' f cs (d :: q')
                (by simp at hl; omega) (by simp) List.suffix_rfl hq
              exact hm (isPre_eq.mpr (by simpa [List.cons_prefix_cons] using this))
        · exact ih _ (by simp at hl; omega) h'

/-- Replacing `p` cannot create an occurrence of an absent string `q`,
provided `q` does not contain or overlap the replacement. -/
lemma sub_pres_absent {q : List Char} (hq : q ≠ [])
    (h₁ : ¬ q <:+: r)
    (h₂ : ∀ x, x ≠ [] → x <:+ r → ¬ x <+: q)
    (h₃ : ∀ u, u ≠ [] → u <:+ q → ¬ u <+: r ∧ ¬ r <+: u) :
    ∀ (f : Nat) (s : List Char), s.length ≤ f → ¬ q <:+: s → ¬ q <:+: subAux p r f s := by
  intro f
  induction f with
  | zero =>
    intro s hl habs h
    cases s with
    | nil => exact habs (by simpa [subAux_nil] using h)
    | cons c cs => simp at hl
  | succ f ih =>
    intro s hl habs h
    cases s with
    | nil => exact habs (by simpa [subAux_nil] using h)
    | cons c cs =>
      simp only [subAux] at h
      by_cases hm : p.isPrefixOf (c :: cs)
      · rw [if_pos hm] at h
        rcases infix_append_split h with h' | h' | ⟨w₁, w₂, heq, hw₁ne, hw₂ne, hw₁r, hw₂⟩
        · exact h₁ h'
        · refine ih _ (by simp at hl; simp [List.length_drop]; omega) ?_ h'
          intro hcs
          exact habs (infix_cons_of (infix_of_drop hcs))
        · exact h₂ w₁ hw₁ne hw₁r ⟨w₂, heq.symm⟩
      · rw [if_neg hm] at h
        rcases List.infix_cons_iff.mp h with h' | h'
        · cases q with
          | nil => exact hq rfl
          | cons a q' =>
            rw [List.cons_prefix_cons] at h'
            obtain ⟨rfl, hq'⟩ := h'
            cases q' with
            | nil => exact habs ⟨[], cs, rfl⟩
            | cons d q'' =>
              have h₃' : ∀ u, u ≠ [] → u <:+ (d :: q'') → ¬ u <+: r ∧ ¬ r <+: u := by
                intro u hne hsuf
                exact h₃ u hne (hsuf.trans (List.suffix_cons a (d :: q'')))
              have := reflectPre p r h₃' f cs (d :: q'')
                (by simp at hl; omega) (by simp) List.suffix_rfl hq'
              obtain ⟨t, ht⟩ := this
              exact habs ⟨[], t, by simp [← ht]⟩
        · exact ih _ (by simp at hl; omega)
            (fun hcs => habs (infix_cons_of hcs)) h'

/-- Replacing an occurring pattern puts the replacement into the document. -/
lemma sub_puts_repl (hp : p ≠ []) :
    ∀ (f : Nat) (s : List Char), s.length ≤ f → p <:+: s → r <:+: subAux p r f s := by
  intro f
  induction f with
  | zero =>
    intro s hl hocc
    cases s with
    | nil => exact absurd (List.eq_nil_of_infix_nil hocc) hp
    | cons c cs => simp at hl
  | succ f ih =>
    intro s hl hocc
    cases s with
    | nil => exact absurd (List.eq_nil_of_infix_nil hocc) hp
    | cons c cs =>
      simp only [subAux]
      by_cases hm : p.isPrefixOf (c :: cs)
      · rw [if_pos hm]
        exact (List.prefix_append r _).isInfix
      · rw [if_neg hm]
        rcases List.infix_cons_iff.mp hocc with h' | h'
        · exact absurd (isPre_eq.mpr h') hm
        · exact infix_cons_of (ih cs (by simp at hl; omega) h')

/-- Inside a protected block `w`, the pattern can match at no position:
any match starting in a nonempty suffix of `w` would overlap `w`. -/
lemma block_no_match {w : List Char}
    (hA : ¬ p <:+: w)
    (hC : ∀ u, u ≠ [] → u <:+ w → u.length < p.length → ¬ u <+: p) :
    ∀ (b u : List Char), u ≠ [] → u <:+ w → ¬ p <+: u ++ b := by
  intro b u hne hsuf hpre
  rcases pre_append_split hpre with h' | ⟨h₁, _⟩
  · exact hA (List.infix_iff_prefix_suffix.mpr ⟨u, h', hsuf⟩)
  · by_cases hlt : u.length < p.length
    · exact hC u hne hsuf hlt h₁
    · have : u = p := h₁.eq_of_length_le (by omega)
      subst this
      exact hA hsuf.isInfix

/-- Scanning a protected block emits it unchanged. -/
lemma block_scan {w : List Char}
    (hA : ¬ p <:+: w)
    (hC : ∀ u, u ≠ [] → u <:+ w → u.length < p.length → ¬ u <+: p) :
    ∀ (w' : List Char) (f : Nat) (b : List Char), w' <:+ w → w'.length + b.length ≤ f →
      subAux p r f (w' ++ b) = w' ++ subAux p r (f - w'.length) b := by
  intro w'
  induction w' with
  | nil => intro f b _ _; simp
  | cons c w'' ih =>
    intro f b hsuf hl
    cases f with
    | zero => simp at hl
    | succ f =>
      have hm : ¬ p.isPrefixOf (c :: (w'' ++ b)) = true := by
        intro hm
        exact block_no_match p hA hC b (c :: w'') (by simp) hsuf (isPre_eq.mp hm)
      show subAux p r (f + 1) (c :: (w'' ++ b)) = _
      simp only [subAux]
      rw [if_neg hm,
        ih f b ((List.suffix_cons c w'').trans hsuf) (by simp at hl; omega)]
      simp [Nat.succ_sub_succ]

/-- A block that the pattern cannot overlap survives the replacement. -/
lemma sub_keeps_block {w : List Char}
    (hp : p ≠ []) (hlen : p.length ≤ w.length)
    (hA : ¬ p <:+: w)
    (hB : ∀ u, u ≠ [] → u <:+ p → ¬ u <+: w)
    (hC : ∀ u, u ≠ [] → u <:+ w → u.length < p.length → ¬ u <+: p) :
    ∀ (f : Nat) (x b : List Char), x.length + w.length + b.length ≤ f →
      w <:+: subAux p r f (x ++ (w ++ b)) := by
  intro f
  induction f with
  | zero =>
    intro x b hl
    have hp1 : 0 < p.length := List.length_pos.mpr hp
    omega
  | succ f ih =>
    intro x b hl
    cases x with
    | nil =>
      rw [List.nil_append,
        block_scan p r hA hC w (f + 1) b List.suffix_rfl (by simpa using hl)]
      exact (List.prefix_append w _).isInfix
    | cons c x' =>
      have hp1 : 0 < p.length := List.length_pos.mpr hp
      show w <:+: subAux p r (f + 1) (c :: (x' ++ (w ++ b)))
      simp only [subAux]
      by_cases hm : p.isPrefixOf (c :: (x' ++ (w ++ b)))
      · rw [if_pos hm]
        have hple : p.length ≤ x'.length + 1 := by
          by_contra hgt
          have hpre : p <+: (c :: x') ++ (w ++ b) := isPre_eq.mp hm
          rcases pre_append_split hpre with h' | ⟨h₁, h₂⟩
          · have := h'.length_le
            simp at this
            omega
          · have hvne : p.drop (c :: x').length ≠ [] := by
              intro hv
              have := congrArg List.length hv
              simp at this ⊢
              omega
            rcases pre_append_split h₂ with h₂' | ⟨h₂₁, _⟩
            · exact hB _ hvne (List.drop_suffix _ p) h₂'
            · have h1 := h₂₁.length_le
              simp at h1
              omega
        rw [show List.drop (p.length - 1) (x' ++ (w ++ b))
              = List.drop (p.length - 1) x' ++ (w ++ b) from
            drop_append_le (by omega)]
        refine infix_append_left r (ih _ b ?_)
        simp only [List.length_drop]
        simp at hl
        omega
      · rw [if_neg hm]
        exact infix_cons_of (ih x' b (by simp at hl; omega))

end SubAux

/-! ### Character-indexed access -/

/-- The character of `s` at position `i`, if any. -/
def nth (s : List Char) (i : Nat) : Option Char := (s.drop i).head?

lemma nth_cons_succ (c : Char) (t : List Char) (j : Nat) : nth (c :: t) (j + 1) = nth t j := rfl

lemma nth_cons_zero (c : Char) (t : List Char) : nth (c :: t) 0 = some c := rfl

lemma nth_append_l {x : List Char} (y : List Char) {i : Nat} (h : i < x.length) :
    nth (x ++ y) i = nth x i := by
  unfold nth
  rw [drop_append_le (Nat.le_of_lt h)]
  cases hx : x.drop i with
  | nil =>
    have := congrArg List.length hx
    simp at this
    omega
  | cons a t => simp [hx]

lemma nth_append_r (x y : List Char) (j : Nat) : nth (x ++ y) (x.length + j) = nth y j := by
  unfold nth
  rw [← List.drop_drop, List.drop_left]

lemma nth_mem {s : List Char} {i : Nat} {c : Char} (h : nth s i = some c) : c ∈ s := by
  unfold nth at h
  obtain ⟨ys, hys⟩ := List.head?_eq_some_iff.mp h
  exact List.mem_of_mem_drop (hys ▸ List.mem_cons_self c ys)

lemma nth_take {s : List Char} {m i : Nat} (h : i < m) : nth (s.take m) i = nth s i := by
  unfold nth
  have hmi : m = i + (m - i) := by omega
  rw [hmi, ← List.take_drop]
  cases hd : s.drop i with
  | nil => simp
  | cons a t =>
    have hmi2 : m - i = (m - i - 1) + 1 := by omega
    rw [hmi2]
    simp

lemma nth_lt_some {l : List Char} {i : Nat} (h : i < l.length) : ∃ c, nth l i = some c := by
  unfold nth
  cases hd : l.drop i with
  | nil =>
    have := congrArg List.length hd
    simp at this
    omega
  | cons a t => exact ⟨a, rfl⟩

/-! ### takeWhile / dropWhile across appends -/

lemma dropWhile_append_ne {pr : Char → Bool} {a : List Char}
    (h : a.dropWhile pr ≠ []) (b : List Char) :
    (a ++ b).dropWhile pr = a.dropWhile pr ++ b := by
  rw [List.dropWhile_append, if_neg]
  cases hd : a.dropWhile pr with
  | nil => exact absurd hd h
  | cons x t => simp [hd]

lemma takeWhile_append_ne {pr : Char → Bool} {a : List Char}
    (h : a.dropWhile pr ≠ []) (b : List Char) :
    (a ++ b).takeWhile pr = a.takeWhile pr := by
  rw [List.takeWhile_append, if_neg]
  intro heq
  have hlen := congrArg List.length (List.takeWhile_append_dropWhile pr a)
  rw [List.length_append, heq] at hlen
  have : (a.dropWhile pr).length = 0 := by omega
  exact h (List.length_eq_zero.mp this)

/-- A maximal run: all of `a` satisfies `pr` and `d` fails it. -/
lemma takeWhile_run {pr : Char → Bool} {a : List Char} (ha : ∀ c ∈ a, pr c = true)
    {d : Char} (hd : pr d = false) (t : List Char) :
    (a ++ d :: t).takeWhile pr = a ∧ (a ++ d :: t).dropWhile pr = d :: t := by
  induction a with
  | nil => simp [List.takeWhile_cons, List.dropWhile_cons, hd]
  | cons x a ih =>
    have hx : pr x = true := ha x (by simp)
    have ih' := ih (fun c hc => ha c (by simp [hc]))
    simp [List.takeWhile_cons, List.dropWhile_cons, hx, ih'.1, ih'.2]

/-! ### Facts about the stripping scanner -/

@[simp] lemma stripAux_nil (f : Nat) : stripAux f [] = [] := by
  cases f <;> rfl

/-- Forward decomposition of a successful match of the stripping regex. -/
lemma matchModel_some {s : List Char} {n : Nat} (h : matchModel s = some n) :
    ∃ q body q2 ws rest,
      s = mLit ++ (q :: (gLit ++ (body ++ (q2 :: (',' :: (ws ++ rest)))))) ∧
      isQuote q = true ∧ body ≠ [] ∧ (∀ c ∈ body, isBodyChar c = true) ∧
      isQuote q2 = true ∧ (∀ c ∈ ws, isPySpace c = true) ∧
      n = 17 + body.length + ws.length := by
  unfold matchModel at h
  by_cases h₁ : mLit.isPrefixOf s
  case neg => rw [if_neg h₁] at h; cases h
  rw [if_pos h₁] at h
  obtain ⟨t, ht⟩ := isPre_eq.mp h₁
  have hdrop : s.drop 7 = t := by
    rw [← ht]
    exact List.drop_left' (by decide)
  rw [hdrop] at h
  cases t with
  | nil => cases h
  | cons q s2 =>
    simp only [matchTail1] at h
    by_cases h₂ : isQuote q
    case neg => rw [if_neg h₂] at h; cases h
    rw [if_pos h₂] at h
    by_cases h₃ : gLit.isPrefixOf s2
    case neg => rw [if_neg h₃] at h; cases h
    rw [if_pos h₃] at h
    obtain ⟨s3, hs3⟩ := isPre_eq.mp h₃
    have hdrop2 : s2.drop 7 = s3 := by
      rw [← hs3]
      exact List.drop_left' (by decide)
    rw [hdrop2] at h
    unfold matchTail2 at h
    cases hdw : s3.dropWhile isBodyChar with
    | nil => rw [hdw] at h; simp only [matchBody] at h; cases h
    | cons q2 s4 =>
      rw [hdw] at h
      simp only [matchBody] at h
      by_cases h₄ : (s3.takeWhile isBodyChar).isEmpty
      case pos => rw [if_pos h₄] at h; cases h
      rw [if_neg h₄] at h
      by_cases h₅ : isQuote q2
      case neg => rw [if_neg h₅] at h; cases h
      rw [if_pos h₅] at h
      cases s4 with
      | nil => simp only [matchTail3] at h; cases h
      | cons e s5 =>
        simp only [matchTail3] at h
        by_cases h₆ : e = ','
        case neg => rw [if_neg h₆] at h; cases h
        rw [if_pos h₆] at h
        subst h₆
        have hn : n = 17 + (s3.takeWhile isBodyChar).length + (s5.takeWhile isPySpace).length :=
          (Option.some.inj h).symm
        have hs3eq : s3 = s3.takeWhile isBodyChar ++ (q2 :: (',' :: s5)) := by
          conv_lhs => rw [← List.takeWhile_append_dropWhile isBodyChar s3]
          rw [hdw]
        refine ⟨q, s3.takeWhile isBodyChar, q2, s5.takeWhile isPySpace, s5.dropWhile isPySpace,
          ?_, h₂, ?_, ?_, h₅, ?_, hn⟩
        · rw [← ht, ← hs3, List.takeWhile_append_dropWhile, ← hs3eq]
        · intro hb
          exact h₄ (by rw [hb]; rfl)
        · exact fun c hc => List.mem_takeWhile_imp hc
        · exact fun c hc => List.mem_takeWhile_imp hc

/-- A successful match has length at least 18 and fits inside the document. -/
lemma matchModel_len {s : List Char} {n : Nat} (h : matchModel s = some n) :
    18 ≤ n ∧ n ≤ s.length := by
  obtain ⟨q, body, q2, ws, rest, rfl, _, hbne, _, _, _, hn⟩ := matchModel_some h
  have hb : 0 < body.length := List.length_pos.mpr hbne
  have hm : mLit.length = 7 := by decide
  have hg : gLit.length = 7 := by decide
  simp [List.length_append, hm, hg]
  omega

lemma peel_m {T : List Char} {j : Nat} (h : j < 7) : nth (mLit ++ T) j = nth mLit j :=
  nth_append_l T (h.trans_eq (show (7 : Nat) = mLit.length by decide))

lemma peel7 (q : Char) (T : List Char) : nth (mLit ++ (q :: T)) 7 = some q := by
  have h : (7 : Nat) = mLit.length + 0 := by decide
  rw [h, nth_append_r]
  rfl

lemma peel8 (q : Char) {T : List Char} {j : Nat} (h : j < 7) :
    nth (mLit ++ (q :: (gLit ++ T))) (8 + j) = nth gLit j := by
  have h1 : 8 + j = mLit.length + (j + 1) := by
    have h7 : mLit.length = 7 := by decide
    omega
  rw [h1, nth_append_r, nth_cons_succ]
  exact nth_append_l T (h.trans_eq (show (7 : Nat) = gLit.length by decide))

lemma peel15 (q : Char) (T : List Char) (j : Nat) :
    nth (mLit ++ (q :: (gLit ++ T))) (15 + j) = nth T j := by
  have h1 : 15 + j = mLit.length + ((7 + j) + 1) := by
    have h7 : mLit.length = 7 := by decide
    omega
  rw [h1, nth_append_r, nth_cons_succ]
  have h2 : 7 + j = gLit.length + j := by
    have h7 : gLit.length = 7 := by decide
    omega
  rw [h2, nth_append_r]

/-- The character-by-character content of a successful match. -/
lemma match_nth {s : List Char} {n : Nat} (h : matchModel s = some n) :
    ∃ k w : Nat, n = 17 + k + w ∧ 1 ≤ k ∧
      (∀ j, j < 7 → nth s j = nth mLit j) ∧
      (∃ q, nth s 7 = some q ∧ isQuote q = true) ∧
      (∀ j, j < 7 → nth s (8 + j) = nth gLit j) ∧
      (∀ j, j < k → ∃ c, nth s (15 + j) = some c ∧ isBodyChar c = true) ∧
      (∃ q2, nth s (15 + k) = some q2 ∧ isQuote q2 = true) ∧
      nth s (16 + k) = some ',' ∧
      (∀ j, j < w → ∃ c, nth s (17 + k + j) = some c ∧ isPySpace c = true) := by
  obtain ⟨q, body, q2, ws, rest, rfl, hq, hbne, hbody, hq2, hws, hn⟩ := matchModel_some h
  refine ⟨body.length, ws.length, hn, List.length_pos.mpr hbne, ?_, ?_, ?_, ?_, ?_, ?_, ?_⟩
  · intro j hj
    exact peel_m hj
  · exact ⟨q, peel7 q _, hq⟩
  · intro j hj
    exact peel8 q hj
  · intro j hj
    obtain ⟨c, hc⟩ := nth_lt_some (l := body) (i := j) hj
    refine ⟨c, ?_, hbody c (nth_mem hc)⟩
    rw [peel15, nth_append_l _ hj, hc]
  · refine ⟨q2, ?_, hq2⟩
    have h0 : 15 + body.length = 15 + (body.length + 0) := by omega
    rw [h0, peel15, nth_append_r]
    rfl
  · have h1 : 16 + body.length = 15 + (body.length + 1) := by omega
    rw [h1, peel15, nth_append_r]
    rfl
  · intro j hj
    obtain ⟨c, hc⟩ := nth_lt_some (l := ws) (i := j) hj
    refine ⟨c, ?_, hws c (nth_mem hc)⟩
    have h1 : 17 + body.length + j = 15 + (body.length + (j + 1 + 1)) := by omega
    rw [h1, peel15, nth_append_r, nth_cons_succ, nth_cons_succ, nth_append_l _ hj, hc]

/-- A match of the stripping regex starting to the left of an inserted
`genCallRepl1` block ends strictly before the block: the block's text can
complete no partial match. -/
lemma matchSafe (x b : List Char) {n : Nat}
    (h : matchModel (x ++ (genCallRepl1 ++ b)) = some n) : n ≤ x.length := by
  by_contra hgt
  push_neg at hgt
  obtain ⟨k, w, hn, hk, hm7, ⟨q, hq, hqq⟩, hg7, hbody, ⟨q2, hq2, hqq2⟩, hcomma, hws⟩ :=
    match_nth h
  have hR1len : genCallRepl1.length = 125 := by decide
  have hblock : ∀ j, j < genCallRepl1.length →
      nth (x ++ (genCallRepl1 ++ b)) (x.length + j) = nth genCallRepl1 j := by
    intro j hj
    rw [nth_append_r, nth_append_l b hj]
  have hm0 : nth (x ++ (genCallRepl1 ++ b)) x.length = some 'c' := by
    have h0 := hblock 0 (by omega)
    rw [Nat.add_zero] at h0
    rw [h0]
    decide
  set m := x.length with hmdef
  rcases (by omega : m < 7 ∨ m = 7 ∨ (8 ≤ m ∧ m < 15) ∨ (15 ≤ m ∧ m < 15 + k) ∨
      m = 15 + k ∨ m = 16 + k ∨ (17 + k ≤ m ∧ m < n)) with
    hc1 | hc2 | hc3 | hc4 | hc5 | hc6 | hc7
  · have h1 := hm7 m hc1
    rw [hm0] at h1
    exact absurd (nth_mem h1.symm) (by decide)
  · rw [← hc2] at hq
    rw [hm0] at hq
    cases hq
    exact absurd hqq (by decide)
  · have h1 := hg7 (m - 8) (by omega)
    rw [show 8 + (m - 8) = m from by omega, hm0] at h1
    exact absurd (nth_mem h1.symm) (by decide)
  · by_cases hcase : m + 45 < 15 + k
    · obtain ⟨c, hc, hcbody⟩ := hbody (m + 30) (by omega)
      rw [show 15 + (m + 30) = m + 45 from by omega] at hc
      have hb45 := hblock 45 (by omega)
      rw [hb45, show nth genCallRepl1 45 = some '"' from by decide] at hc
      cases hc
      exact absurd hcbody (by decide)
    · push_neg at hcase
      have hb := hblock (15 + k - m) (by omega)
      rw [show m + (15 + k - m) = 15 + k from by omega, hq2] at hb
      by_cases h45 : 15 + k - m < 45
      · have htk := nth_take (s := genCallRepl1) (m := 45) h45
        have hq2mem : q2 ∈ genCallRepl1.take 45 := nth_mem (by rw [htk, ← hb])
        have hall : ∀ c ∈ genCallRepl1.take 45, isQuote c = false := by decide
        rw [hall q2 hq2mem] at hqq2
        cases hqq2
      · have hb46 := hblock 46 (by omega)
        rw [show m + 46 = 16 + k from by omega, hcomma,
          show nth genCallRepl1 46 = some 'g' from by decide] at hb46
        simp at hb46
  · rw [← hc5, hm0] at hq2
    cases hq2
    exact absurd hqq2 (by decide)
  · rw [← hc6, hm0] at hcomma
    simp at hcomma
  · obtain ⟨c, hc, hcsp⟩ := hws (m - 17 - k) (by omega)
    rw [show 17 + k + (m - 17 - k) = m from by omega, hm0] at hc
    cases hc
    exact absurd hcsp (by decide)

/-! ### Certain failure of the stripping regex, independent of what follows -/

/-- Stage 4 check: failure is certain when the character after the closing
quote is present and differs from `,`. -/
def fwTail3 : List Char → Bool
  | [] => false
  | e :: _ => decide (e ≠ ',')

/-- Stage 3 check. -/
def fwBody : List Char → List Char → Bool
  | _, [] => false
  | body, q2 :: s4 =>
    if body.isEmpty then true
    else if isQuote q2 then fwTail3 s4
    else true

/-- Stage 2 check. -/
def fwTail2 (s3 : List Char) : Bool :=
  fwBody (s3.takeWhile isBodyChar) (s3.dropWhile isBodyChar)

/-- Stage 1 check. -/
def fwTail1 : List Char → Bool
  | [] => false
  | q :: s2 =>
    if isQuote q then
      if gLit.isPrefixOf s2 then fwTail2 (s2.drop 7) else !(s2.isPrefixOf gLit)
    else true

/-- Conservative check that the stripping regex certainly fails at the head of
`s` whatever text is appended after `s`: the point of failure lies inside `s`. -/
def failsWithin (s : List Char) : Bool :=
  if mLit.isPrefixOf s then fwTail1 (s.drop 7) else !(s.isPrefixOf mLit)

lemma failsWithin_sound {s : List Char} (h : failsWithin s = true) (b : List Char) :
    matchModel (s ++ b) = none := by
  unfold failsWithin at h
  unfold matchModel
  by_cases h₁ : mLit.isPrefixOf s
  · rw [if_pos h₁] at h
    have h₁' : mLit.isPrefixOf (s ++ b) = true :=
      isPre_eq.mpr ((isPre_eq.mp h₁).trans (List.prefix_append s b))
    rw [if_pos h₁']
    have h7 : 7 ≤ s.length := by
      have hle := (isPre_eq.mp h₁).length_le
      have h7' : mLit.length = 7 := by decide
      omega
    rw [drop_append_le h7]
    cases hd : s.drop 7 with
    | nil =>
      rw [hd] at h
      simp [fwTail1] at h
    | cons q s2 =>
      rw [hd] at h
      simp only [fwTail1] at h
      show matchTail1 (q :: (s2 ++ b)) = none
      simp only [matchTail1]
      by_cases h₂ : isQuote q
      case neg => rw [if_neg h₂]
      rw [if_pos h₂] at h ⊢
      by_cases h₃ : gLit.isPrefixOf s2
      · rw [if_pos h₃] at h
        have h₃' : gLit.isPrefixOf (s2 ++ b) = true :=
          isPre_eq.mpr ((isPre_eq.mp h₃).trans (List.prefix_append s2 b))
        rw [if_pos h₃']
        have hg7 : 7 ≤ s2.length := by
          have hle := (isPre_eq.mp h₃).length_le
          have hg7' : gLit.length = 7 := by decide
          omega
        rw [drop_append_le hg7]
        unfold matchTail2
        unfold fwTail2 at h
        cases hdw : (s2.drop 7).dropWhile isBodyChar with
        | nil =>
          rw [hdw] at h
          simp [fwBody] at h
        | cons q2 s4 =>
          rw [hdw] at h
          simp only [fwBody] at h
          have hne : (s2.drop 7).dropWhile isBodyChar ≠ [] := by rw [hdw]; simp
          rw [takeWhile_append_ne hne b, dropWhile_append_ne hne b, hdw]
          show matchBody _ (q2 :: (s4 ++ b)) = none
          simp only [matchBody]
          by_cases h₄ : ((s2.drop 7).takeWhile isBodyChar).isEmpty
          · rw [if_pos h₄]
          rw [if_neg h₄] at h ⊢
          by_cases h₅ : isQuote q2
          case neg => rw [if_neg h₅]
          rw [if_pos h₅] at h ⊢
          cases s4 with
          | nil => simp [fwTail3] at h
          | cons e s5 =>
            simp only [fwTail3] at h
            have he : e ≠ ',' := of_decide_eq_true h
            show matchTail3 (e :: (s5 ++ b)) _ = none
            simp only [matchTail3]
            rw [if_neg he]
      · rw [if_neg h₃] at h
        have hnp : s2.isPrefixOf gLit = false := by
          cases hx : s2.isPrefixOf gLit
          · rfl
          · rw [hx] at h; cases h
        have h₃' : ¬ gLit.isPrefixOf (s2 ++ b) = true := by
          intro hg
          rcases pre_append_split (isPre_eq.mp hg) with h' | ⟨h'', _⟩
          · exact h₃ (isPre_eq.mpr h')
          · have hc := isPre_eq.mpr h''
            rw [hc] at hnp
            cases hnp
        rw [if_neg h₃']
  · rw [if_neg h₁] at h
    have hnp : s.isPrefixOf mLit = false := by
      cases hx : s.isPrefixOf mLit
      · rfl
      · rw [hx] at h; cases h
    have h₁' : ¬ mLit.isPrefixOf (s ++ b) = true := by
      intro hg
      rcases pre_append_split (isPre_eq.mp hg) with h' | ⟨h'', _⟩
      · exact h₁ (isPre_eq.mpr h')
      · have hc := isPre_eq.mpr h''
        rw [hc] at hnp
        cases hnp
    rw [if_neg h₁']

/-- No suffix of the inserted block can start a match of the stripping regex,
whatever follows the block. -/
lemma R1_no_match_within :
    ∀ u, u ≠ [] → u <:+ genCallRepl1 → ∀ b, matchModel (u ++ b) = none := by
  have hall : ∀ t ∈ genCallRepl1.tails, t = [] ∨ failsWithin t = true := by decide
  intro u hne hsuf b
  rcases hall u ((List.mem_tails u genCallRepl1).mpr hsuf) with h | h
  · exact absurd h hne
  · exact failsWithin_sound h b

/-! ### The stripping scanner around a protected block -/

lemma stripAux_fuel :
    ∀ (f₁ f₂ : Nat) (s : List Char), s.length ≤ f₁ → s.length ≤ f₂ →
      stripAux f₁ s = stripAux f₂ s := by
  intro f₁
  induction f₁ with
  | zero =>
    intro f₂ s h₁ _
    cases s with
    | nil => simp
    | cons c cs => simp at h₁
  | succ f₁ ih =>
    intro f₂ s h₁ h₂
    cases s with
    | nil => simp
    | cons c cs =>
      cases f₂ with
      | zero => simp at h₂
      | succ f₂ =>
        cases hm : matchModel (c :: cs) with
        | some n =>
          simp only [stripAux, hm]
          apply ih
          · simp only [List.length_drop]
            simp at h₁
            omega
          · simp only [List.length_drop]
            simp at h₂
            omega
        | none =>
          simp only [stripAux, hm]
          rw [ih f₂ cs (by simp at h₁; omega) (by simp at h₂; omega)]

/-- When the regex matches nowhere, the stripping scanner is the identity. -/
lemma strip_noop :
    ∀ (f : Nat) (s : List Char), s.length ≤ f →
      (∀ u, u <:+ s → matchModel u = none) → stripAux f s = s := by
  intro f
  induction f with
  | zero =>
    intro s hl _
    cases s with
    | nil => rfl
    | cons c cs => simp at hl
  | succ f ih =>
    intro s hl hno
    cases s with
    | nil => rfl
    | cons c cs =>
      have hm : matchModel (c :: cs) = none := hno _ List.suffix_rfl
      simp only [stripAux, hm]
      rw [ih cs (by simp at hl; omega) (fun u hu => hno u (hu.trans (List.suffix_cons c cs)))]

lemma strip_scan_block :
    ∀ (w' : List Char) (f : Nat) (b : List Char), w' <:+ genCallRepl1 →
      w'.length + b.length ≤ f →
      stripAux f (w' ++ b) = w' ++ stripAux (f - w'.length) b := by
  intro w'
  induction w' with
  | nil =>
    intro f b _ _
    simp
  | cons c w'' ih =>
    intro f b hsuf hl
    cases f with
    | zero => simp at hl
    | succ f =>
      have hm : matchModel (c :: (w'' ++ b)) = none :=
        R1_no_match_within (c :: w'') (by simp) hsuf b
      show stripAux (f + 1) (c :: (w'' ++ b)) = _
      simp only [stripAux, hm]
      rw [ih f b ((List.suffix_cons c w'').trans hsuf) (by simp at hl; omega)]
      simp [Nat.succ_sub_succ]

lemma strip_keeps_block :
    ∀ (f : Nat) (x b : List Char), x.length + genCallRepl1.length + b.length ≤ f →
      genCallRepl1 <:+: stripAux f (x ++ (genCallRepl1 ++ b)) := by
  intro f
  induction f with
  | zero =>
    intro x b hl
    have h125 : genCallRepl1.length = 125 := by decide
    omega
  | succ f ih =>
    intro x b hl
    cases x with
    | nil =>
      rw [List.nil_append,
        strip_scan_block genCallRepl1 (f + 1) b List.suffix_rfl (by simpa using hl)]
      exact (List.prefix_append _ _).isInfix
    | cons c x' =>
      show genCallRepl1 <:+: stripAux (f + 1) (c :: (x' ++ (genCallRepl1 ++ b)))
      cases hm : matchModel (c :: (x' ++ (genCallRepl1 ++ b))) with
      | some n =>
        have hsafe : n ≤ (c :: x').length := matchSafe (c :: x') b hm
        have hlen18 := (matchModel_len hm).1
        simp only [stripAux, hm]
        rw [drop_append_le (show n - 1 ≤ x'.length by simp at hsafe; omega)]
        apply ih
        simp only [List.length_drop]
        simp at hl
        omega
      | none =>
        simp only [stripAux, hm]
        exact infix_cons_of (ih x' b (by simp at hl; omega))

/-- The handle-construction block inserted by the rewrites survives the
stripping step: its inline `model:` parameter carries no trailing comma, so
the stripping regex can neither match inside it nor across its edges. -/
lemma strip_keeps {t : List Char} (h : genCallRepl1 <:+: t) :
    genCallRepl1 <:+: stripModelParam t := by
  obtain ⟨a, b, rfl⟩ := h
  unfold stripModelParam
  rw [List.append_assoc]
  apply strip_keeps_block
  simp [List.length_append]
  omega

/-! ### Decidable overlap checks and subst-level wrappers -/

/-- Boolean check: no nonempty suffix of `w` is a prefix of `q`. -/
def noSufPre (w q : List Char) : Bool :=
  w.tails.all (fun t => t.isEmpty || !(t.isPrefixOf q))

lemma noSufPre_sound {w q : List Char} (h : noSufPre w q = true) :
    ∀ u, u ≠ [] → u <:+ w → ¬ u <+: q := by
  intro u hne hsuf hp
  have hu := (List.all_eq_true.mp h) u ((List.mem_tails u w).mpr hsuf)
  rcases Bool.or_eq_true_iff.mp hu with h' | h'
  · exact hne (by simpa using h')
  · rw [isPre_eq.mpr hp] at h'
    cases h'

/-- Boolean check: no nonempty suffix of `w` is prefix-comparable with `r`. -/
def noSufComp (w r : List Char) : Bool :=
  w.tails.all (fun t => t.isEmpty || (!(t.isPrefixOf r) && !(r.isPrefixOf t)))

lemma noSufComp_sound {w r : List Char} (h : noSufComp w r = true) :
    ∀ u, u ≠ [] → u <:+ w → ¬ u <+: r ∧ ¬ r <+: u := by
  intro u hne hsuf
  have hu := (List.all_eq_true.mp h) u ((List.mem_tails u w).mpr hsuf)
  rcases Bool.or_eq_true_iff.mp hu with h' | h'
  · exact absurd (by simpa using h') hne
  · obtain ⟨h₁, h₂⟩ := Bool.and_eq_true_iff.mp h'
    constructor
    · intro hp
      rw [isPre_eq.mpr hp] at h₁
      cases h₁
    · intro hp
      rw [isPre_eq.mpr hp] at h₂
      cases h₂

lemma subst_noop {p r s : List Char} (h : ¬ p <:+: s) : subst p r s = s :=
  sub_noop p r s.length s Nat.le.refl h

lemma subst_no_self {p r : List Char} (hp : p ≠ []) (h₁ : ¬ p <:+: r)
    (h₂ : noSufPre r p = true) (h₃ : noSufComp p r = true) (s : List Char) :
    ¬ p <:+: subst p r s :=
  sub_no_self p r hp h₁ (noSufPre_sound h₂)
    (fun u hne hsuf _ => noSufComp_sound h₃ u hne hsuf) s.length s Nat.le.refl

lemma subst_pres_absent {p r q : List Char} (hq : q ≠ []) (h₁ : ¬ q <:+: r)
    (h₂ : noSufPre r q = true) (h₃ : noSufComp q r = true) {s : List Char}
    (habs : ¬ q <:+: s) : ¬ q <:+: subst p r s :=
  sub_pres_absent p r hq h₁ (noSufPre_sound h₂) (noSufComp_sound h₃)
    s.length s Nat.le.refl habs

lemma subst_puts {p r s : List Char} (hp : p ≠ []) (h : p <:+: s) :
    r <:+: subst p r s :=
  sub_puts_repl p r hp s.length s Nat.le.refl h

lemma subst_keeps_block {p r w : List Char} (hp : p ≠ []) (hlen : p.length ≤ w.length)
    (hA : ¬ p <:+: w) (hB : noSufPre p w = true) (hC : noSufPre w p = true)
    {s : List Char} (h : w <:+: s) : w <:+: subst p r s := by
  obtain ⟨a, b, rfl⟩ := h
  unfold subst
  rw [List.append_assoc]
  apply sub_keeps_block p r hp hlen hA (noSufPre_sound hB)
    (fun u hne hsuf _ => noSufPre_sound hC u hne hsuf)
  simp [List.length_append]
  omega

/-! ### The stripping step on a leading `model: "gemini-…",` fragment -/

/-- The inline model fragment of §8 test 6 of the spec. -/
def modelFrag : List Char := ("model: \"gemini-2.0-flash-exp\",").toList

lemma matchModel_modelFrag (b : List Char) :
    matchModel (modelFrag ++ b) = some (30 + (b.takeWhile isPySpace).length) := by
  have h0 : modelFrag
      = mLit ++ ('"' :: (gLit ++ (("2.0-flash-exp").toList ++ ['"', ',']))) := by decide
  have hdecomp : modelFrag ++ b
      = mLit ++ ('"' :: (gLit ++ (("2.0-flash-exp").toList ++ ('"' :: (',' :: b))))) := by
    rw [h0]
    simp
  rw [hdecomp]
  unfold matchModel
  rw [if_pos (isPre_eq.mpr (List.prefix_append mLit _))]
  rw [List.drop_left' (show mLit.length = 7 from by decide)]
  simp only [matchTail1]
  rw [if_pos (show isQuote '"' = true from by decide)]
  rw [if_pos (isPre_eq.mpr (List.prefix_append gLit _))]
  rw [List.drop_left' (show gLit.length = 7 from by decide)]
  unfold matchTail2
  have hrun := @takeWhile_run isBodyChar (("2.0-flash-exp").toList)
    (by decide) '"' (by decide) (',' :: b)
  rw [hrun.1, hrun.2]
  simp only [matchBody]
  rw [if_neg (show ¬ (("2.0-flash-exp").toList).isEmpty = true from by decide)]
  rw [if_pos (show isQuote '"' = true from by decide)]
  simp only [matchTail3, if_true]
  rw [show (("2.0-flash-exp").toList).length = 13 from by decide]

lemma strip_modelFrag (b : List Char) :
    stripModelParam (modelFrag ++ b) = stripModelParam (b.dropWhile isPySpace) := by
  have h0 : modelFrag = 'm' :: ("odel: \"gemini-2.0-flash-exp\",").toList := by decide
  have hmatch : matchModel ('m' :: (("odel: \"gemini-2.0-flash-exp\",").toList ++ b))
      = some (30 + (b.takeWhile isPySpace).length) := by
    have hm := matchModel_modelFrag b
    rw [h0] at hm
    exact hm
  unfold stripModelParam
  have hlen : (modelFrag ++ b).length = 29 + b.length + 1 := by
    rw [List.length_append, show modelFrag.length = 30 from by decide]
    omega
  rw [hlen, h0]
  show stripAux (29 + b.length + 1)
      ('m' :: (("odel: \"gemini-2.0-flash-exp\",").toList ++ b)) = _
  simp only [stripAux, hmatch]
  have hdrop : List.drop (30 + (b.takeWhile isPySpace).length - 1)
      (("odel: \"gemini-2.0-flash-exp\",").toList ++ b)
      = b.drop (b.takeWhile isPySpace).length := by
    have h2 : 30 + (b.takeWhile isPySpace).length - 1
        = 29 + (b.takeWhile isPySpace).length := by omega
    rw [h2, ← List.drop_drop,
      List.drop_left' (show (("odel: \"gemini-2.0-flash-exp\",").toList).length = 29
        from by decide)]
  rw [hdrop]
  have hdw : b.drop (b.takeWhile isPySpace).length = b.dropWhile isPySpace := by
    calc b.drop (b.takeWhile isPySpace).length
        = (b.takeWhile isPySpace ++ b.dropWhile isPySpace).drop
            (b.takeWhile isPySpace).length := by
          rw [List.takeWhile_append_dropWhile]
      _ = b.dropWhile isPySpace := List.drop_left _ _
  rw [hdw]
  apply stripAux_fuel
  · have hsuf := List.dropWhile_suffix (l := b) isPySpace
    have := hsuf.length_le
    omega
  · exact Nat.le.refl

/-! ### No fragment means the stripping step is the identity -/

lemma no_frag_no_match {s : List Char}
    (h1 : ¬ (mLit ++ ('"' :: gLit)) <:+: s)
    (h2 : ¬ (mLit ++ ('\'' :: gLit)) <:+: s) :
    ∀ u, u <:+ s → matchModel u = none := by
  intro u hu
  cases hm : matchModel u with
  | none => rfl
  | some n =>
    obtain ⟨q, body, q2, ws, rest, heq, hq, _, _, _, _, _⟩ := matchModel_some hm
    have hpre : (mLit ++ (q :: gLit)) <+: u := by
      rw [heq]
      refine ⟨body ++ (q2 :: (',' :: (ws ++ rest))), ?_⟩
      simp
    have hinf : (mLit ++ (q :: gLit)) <:+: s :=
      List.infix_iff_prefix_suffix.mpr ⟨u, hpre, hu⟩
    have hq' : q = '\'' ∨ q = '"' := by
      have := hq
      unfold isQuote at this
      rcases Bool.or_eq_true_iff.mp this with h' | h'
      · exact Or.inl (by simpa using h')
      · exact Or.inr (by simpa using h')
    rcases hq' with rfl | rfl
    · exact absurd hinf h2
    · exact absurd hinf h1

lemma strip_noop_of_no_frag {s : List Char}
    (h1 : ¬ (mLit ++ ('"' :: gLit)) <:+: s)
    (h2 : ¬ (mLit ++ ('\'' :: gLit)) <:+: s) :
    stripModelParam s = s :=
  strip_noop s.length s Nat.le.refl (no_frag_no_match h1 h2)

/-! ### The pipeline around the inserted handle block -/

/-- Whenever the generation-call pattern occurs, the whole pipeline's output
contains the inserted three-line replacement text: the second rewrite, the
five token replacements and the stripping step all leave it intact. -/
lemma pipeline_keeps_R1 {s : List Char} (h : genCallPat <:+: s) :
    genCallRepl1 <:+: fixAiCalls s := by
  unfold fixAiCalls
  have h1 : genCallRepl1 <:+: subst genCallPat genCallRepl1 s :=
    subst_puts (by decide) h
  have h2 : subst genCallPat genCallRepl2 (subst genCallPat genCallRepl1 s)
      = subst genCallPat genCallRepl1 s :=
    subst_noop (subst_no_self (by decide) (by decide) (by decide) (by decide) s)
  rw [h2]
  apply strip_keeps
  unfold enumFix
  exact subst_keeps_block (by decide) (by decide) (by decide) (by decide) (by decide)
    (subst_keeps_block (by decide) (by decide) (by decide) (by decide) (by decide)
      (subst_keeps_block (by decide) (by decide) (by decide) (by decide) (by decide)
        (subst_keeps_block (by decide) (by decide) (by decide) (by decide) (by decide)
          (subst_keeps_block (by decide) (by decide) (by decide) (by decide) (by decide)
            h1))))

/-! ### Claims -/

/-- A document containing the four-space-indented generation call, whose
`model:` argument has no trailing comma. -/
def inputC1 : List Char :=
  ("    const response = await ai.models.generateContent(\x7b\n        model: \"gemini-2.0-flash-exp\"\n    \x7d);").toList

/-- Claim C1, counterexample: on a document containing the four-space-indented
two-line call pattern whose `model:` argument carries no trailing comma, the
pipeline's output still contains a `model: "gemini-…"` argument directly
inside the rewritten `generateContent(` parentheses, contradicting the
claimed absence of leftovers. -/
theorem C1_counter :
    (("    const response = await ai.models.generateContent(").toList <:+: inputC1) ∧
    ("await model.generateContent(\x7b\n        model: \"gemini-2.0-flash-exp\"").toList
      <:+: fixAiCalls inputC1 := by decide

/-- Claim C1, amended: for every input document containing the two-line
`ai.models.generateContent` call pattern with four-space indentation, the
output of the full pipeline contains the three-line handle-then-call pattern
binding `"gemini-2.0-flash-exp"`; leftover `model: "gemini-…"` arguments are
removed only when they carry a trailing comma, so a comma-less argument can
remain inside the call parentheses. -/
theorem C1_full_rewrite {s : List Char}
    (h : ("    const response = await ai.models.generateContent(").toList <:+: s) :
    genCallRepl1 <:+: fixAiCalls s := by
  apply pipeline_keeps_R1
  exact (show genCallPat
      <:+: ("    const response = await ai.models.generateContent(").toList
    from by decide).trans h

/-- Witness for C1: the amended theorem applied at a concrete document. -/
theorem C1_full_rewrite_witness :
    (("    const response = await ai.models.generateContent(").toList <:+: inputC1) ∧
    genCallRepl1 <:+: fixAiCalls inputC1 :=
  ⟨by decide, C1_full_rewrite (by decide)⟩

/-- A `model:` fragment without a trailing comma. -/
def noCommaFrag : List Char := ("model: \"gemini-2.0-flash-exp\"").toList

/-- Claim C2, counterexample: the stripping step removes nothing from a
`model: "gemini-…"` fragment that has no trailing comma, although the claim
says the trailing comma is optional (removal would leave the empty
document). -/
theorem C2_counter :
    stripModelParam noCommaFrag = noCommaFrag ∧ noCommaFrag ≠ [] := by decide

/-- Claim C2, amended: the stripping step removes a leading
`model: "gemini-2.0-flash-exp",` fragment together with its **mandatory**
trailing comma and the whitespace following the comma, and then continues on
the remaining text, so sibling arguments survive untouched; in particular
`model: "gemini-2.0-flash-exp", contents: prompt` becomes
`contents: prompt`. -/
theorem C2_strip_frag :
    (∀ b : List Char,
      stripModelParam (modelFrag ++ b) = stripModelParam (b.dropWhile isPySpace)) ∧
    stripModelParam (modelFrag ++ (" contents: prompt").toList)
      = ("contents: prompt").toList := by
  constructor
  · exact strip_modelFrag
  · rw [strip_modelFrag]
    decide

/-- A document on which the pipeline's stripping step splices together a new
occurrence of the generation-call pattern. -/
def inputC3 : List Char :=
  ("const response = await ai.models.generateContent(\nconst response = await ai.modmodel: \"gemini-x\",els.generateContent(").toList

/-- Counts the positions of `s` at which `pat` occurs. -/
def countOcc (pat : List Char) : List Char → Nat
  | [] => 0
  | c :: cs => (if pat.isPrefixOf (c :: cs) then 1 else 0) + countOcc pat cs

/-- Claim C3, counterexample: there is a document whose transform contains one
handle construction, while transforming it a second time yields two handle
constructions — the stripping step of the first run splices together a fresh
occurrence of the call pattern — so the pipeline is not idempotent on its own
output. -/
theorem C3_counter :
    countOcc (("ai.getGenerativeModel").toList) (fixAiCalls inputC3) = 1 ∧
    countOcc (("ai.getGenerativeModel").toList) (fixAiCalls (fixAiCalls inputC3)) = 2 ∧
    fixAiCalls (fixAiCalls inputC3) ≠ fixAiCalls inputC3 := by decide

/-- Claim C3, amended: the rewrite phase alone (steps 2 and 3) is idempotent —
re-running both rewrites on their own output changes nothing, because the
replacement text contains no occurrence of the search pattern — but the full
pipeline is not idempotent, because the stripping step can splice together a
new occurrence of the call pattern (see the counterexample). -/
theorem C3_rewrite_idem (s : List Char) :
    subst genCallPat genCallRepl2 (subst genCallPat genCallRepl1
      (subst genCallPat genCallRepl2 (subst genCallPat genCallRepl1 s)))
    = subst genCallPat genCallRepl2 (subst genCallPat genCallRepl1 s) := by
  have hns : ∀ t, ¬ genCallPat <:+: subst genCallPat genCallRepl1 t := fun t =>
    subst_no_self (by decide) (by decide) (by decide) (by decide) t
  rw [subst_noop (hns s), subst_noop (hns s), subst_noop (hns s)]

/-- Claim C4: an input containing none of the target patterns — no
`ai.models.generateContent`, none of the five `Type.…` tokens, and no
`model: ["']gemini-` fragment — is returned byte-identical by the full
pipeline. -/
theorem C4_noop {s : List Char}
    (hcall : ¬ ("ai.models.generateContent").toList <:+: s)
    (htok : ∀ i : Fin 5, ¬ typeTok i <:+: s)
    (hfrag1 : ¬ (mLit ++ ('"' :: gLit)) <:+: s)
    (hfrag2 : ¬ (mLit ++ ('\'' :: gLit)) <:+: s) :
    fixAiCalls s = s := by
  have hP : ¬ genCallPat <:+: s := by
    intro h
    exact hcall ((show ("ai.models.generateContent").toList <:+: genCallPat
      from by decide).trans h)
  unfold fixAiCalls
  rw [subst_noop hP, subst_noop hP]
  unfold enumFix
  rw [subst_noop (htok 0), subst_noop (htok 1), subst_noop (htok 2),
    subst_noop (htok 3), subst_noop (htok 4)]
  exact strip_noop_of_no_frag hfrag1 hfrag2

/-- Witness for C4: the theorem applied at a concrete pattern-free document. -/
theorem C4_noop_witness :
    (¬ ("ai.models.generateContent").toList <:+: ("hello world").toList) ∧
    (∀ i : Fin 5, ¬ typeTok i <:+: ("hello world").toList) ∧
    (¬ (mLit ++ ('"' :: gLit)) <:+: ("hello world").toList) ∧
    (¬ (mLit ++ ('\'' :: gLit)) <:+: ("hello world").toList) ∧
    fixAiCalls (("hello world").toList) = ("hello world").toList :=
  ⟨by decide, by decide, by decide, by decide,
    C4_noop (by decide) (by decide) (by decide) (by decide)⟩

/-- Claim C5, counterexample: in `Type.OBJECType.STRING` the two token
occurrences overlap; the `Type.OBJECT` replacement consumes the overlap, the
`Type.STRING` occurrence present in the input is never replaced, and its
quoted equivalent `"string"` does not appear in the output. -/
theorem C5_counter :
    enumFix (("Type.OBJECType.STRING").toList) = ("\"object\"ype.STRING").toList ∧
    ¬ (("\"string\"").toList <:+: enumFix (("Type.OBJECType.STRING").toList)) ∧
    ("Type.STRING").toList <:+: ("Type.OBJECType.STRING").toList := by decide

/-- Claim C5, amended: the normalization step eliminates the five tokens —
no occurrence of any of them remains in its output — replacing leftmost
non-overlapping occurrences by the quoted equivalents; an occurrence
overlapping an earlier (leftward) replacement is consumed rather than
replaced; and an input containing no token occurrence at all is returned
unaltered. -/
theorem C5_enum (s : List Char) :
    (∀ i : Fin 5, ¬ typeTok i <:+: enumFix s) ∧
    ((∀ i : Fin 5, ¬ typeTok i <:+: s) → enumFix s = s) := by
  constructor
  · intro i
    unfold enumFix
    fin_cases i
    · exact subst_pres_absent (by decide) (by decide) (by decide) (by decide)
        (subst_pres_absent (by decide) (by decide) (by decide) (by decide)
          (subst_pres_absent (by decide) (by decide) (by decide) (by decide)
            (subst_pres_absent (by decide) (by decide) (by decide) (by decide)
              (subst_no_self (by decide) (by decide) (by decide) (by decide) _))))
    · exact subst_pres_absent (by decide) (by decide) (by decide) (by decide)
        (subst_pres_absent (by decide) (by decide) (by decide) (by decide)
          (subst_pres_absent (by decide) (by decide) (by decide) (by decide)
            (subst_no_self (by decide) (by decide) (by decide) (by decide) _)))
    · exact subst_pres_absent (by decide) (by decide) (by decide) (by decide)
        (subst_pres_absent (by decide) (by decide) (by decide) (by decide)
          (subst_no_self (by decide) (by decide) (by decide) (by decide) _))
    · exact subst_pres_absent (by decide) (by decide) (by decide) (by decide)
        (subst_no_self (by decide) (by decide) (by decide) (by decide) _)
    · exact subst_no_self (by decide) (by decide) (by decide) (by decide) _
  · intro h
    unfold enumFix
    rw [subst_noop (h 0), subst_noop (h 1), subst_noop (h 2),
      subst_noop (h 3), subst_noop (h 4)]

/-- Witness for C5: the amended theorem applied at a concrete document. -/
theorem C5_enum_witness :
    (∀ i : Fin 5, ¬ typeTok i <:+: enumFix (("hello").toList)) ∧
    enumFix (("hello").toList) = ("hello").toList :=
  ⟨(C5_enum (("hello").toList)).1, (C5_enum (("hello").toList)).2 (by decide)⟩

/-- Claim C6: when the target file is absent, the run fails with `IOError`
and the filesystem is returned unchanged — no file is created or modified. -/
theorem C6_missing_file (fs : FS) (h : fs.files targetPath = none) :
    runScript fs = (some IOErr.ioError, fs) := by
  unfold runScript
  rw [h]

/-- Witness for C6: the theorem applied to the empty filesystem. -/
theorem C6_missing_file_witness :
    (FS.mk (fun _ => none)).files targetPath = none ∧
    runScript (FS.mk (fun _ => none)) = (some IOErr.ioError, FS.mk (fun _ => none)) :=
  ⟨rfl, C6_missing_file _ rfl⟩

/-- Claim C7: the indentation-variant rewrite (step 3) performs zero
replacements on any output of the primary rewrite (step 2): applying both is
the same as applying the primary rewrite alone, because step 2 consumes every
match of the shared pattern and its replacement can recreate none. -/
theorem C7_second_rewrite_noop (s : List Char) :
    subst genCallPat genCallRepl2 (subst genCallPat genCallRepl1 s)
      = subst genCallPat genCallRepl1 s :=
  subst_noop (subst_no_self (by decide) (by decide) (by decide) (by decide) s)

/-- Claim C8, counterexample: on `Type.OBJECType.STRING` the `Type.OBJECT`
and `Type.STRING` replacements do not commute — replacing one destroys the
overlapping match of the other — so the five substitutions are
order-sensitive. -/
theorem C8_counter :
    subst (typeTok 1) (typeRepl 1) (subst (typeTok 0) (typeRepl 0)
      (("Type.OBJECType.STRING").toList))
    ≠ subst (typeTok 0) (typeRepl 0) (subst (typeTok 1) (typeRepl 1)
      (("Type.OBJECType.STRING").toList)) := by decide

/-- Claim C8, amended: no replacement creates a match for any of the other
four tokens — a token absent before one of the five substitutions is still
absent afterwards — but a replacement can destroy an overlapping match of
another token, so the substitutions need not commute. -/
theorem C8_no_creation (s : List Char) (i j : Fin 5)
    (hij : i ≠ j) (habs : ¬ typeTok j <:+: s) :
    ¬ typeTok j <:+: subst (typeTok i) (typeRepl i) s := by
  fin_cases i <;> fin_cases j <;>
    first
      | exact absurd rfl hij
      | exact subst_pres_absent (by decide) (by decide) (by decide) (by decide) habs

/-- Witness for C8: the amended theorem applied at a concrete document. -/
theorem C8_no_creation_witness :
    ((0 : Fin 5) ≠ (1 : Fin 5)) ∧
    (¬ typeTok 1 <:+: ("Type.OBJECT x").toList) ∧
    ¬ typeTok 1 <:+: subst (typeTok 0) (typeRepl 0) (("Type.OBJECT x").toList) :=
  ⟨by decide, by decide, C8_no_creation _ 0 1 (by decide) (by decide)⟩

/-- Claim C9: a run on a filesystem holding the target file succeeds, writes
the fully transformed text back to the same fixed path, and leaves every
other path untouched. -/
theorem C9_frame (fs : FS) (c : List Char) (h : fs.files targetPath = some c) :
    (runScript fs).1 = none ∧
    (runScript fs).2.files targetPath = some (fixAiCalls c) ∧
    ∀ p, p ≠ targetPath → (runScript fs).2.files p = fs.files p := by
  unfold runScript
  rw [h]
  refine ⟨rfl, ?_, ?_⟩
  · simp
  · intro p hp
    simp [hp]

/-- A one-file filesystem holding an empty target document. -/
def fsDemo : FS := FS.mk (fun p => if p = targetPath then some [] else none)

/-- Witness for C9: the theorem applied to a concrete filesystem. -/
theorem C9_frame_witness :
    fsDemo.files targetPath = some [] ∧
    (runScript fsDemo).1 = none ∧
    (runScript fsDemo).2.files targetPath = some (fixAiCalls []) ∧
    (runScript fsDemo).2.files "other" = fsDemo.files "other" := by
  have h : fsDemo.files targetPath = some [] := by
    unfold fsDemo
    simp
  have hmain := C9_frame fsDemo [] h
  exact ⟨h, hmain.1, hmain.2.1, hmain.2.2 "other" (by decide)⟩

/-- Claim C10: the `model: "gemini-2.0-flash-exp"` fragment inserted inside
the `ai.getGenerativeModel({ … })` handle constructor carries no trailing
comma, so the stripping regex never matches it (nor across its edges), and on
any input containing the generation-call pattern the pipeline's final output
retains the whole handle construction with its bound model identifier. -/
theorem C10_handle_retained {s : List Char} (h : genCallPat <:+: s) :
    ("ai.getGenerativeModel(\x7b model: \"gemini-2.0-flash-exp\" \x7d);").toList
      <:+: fixAiCalls s :=
  (show ("ai.getGenerativeModel(\x7b model: \"gemini-2.0-flash-exp\" \x7d);").toList
      <:+: genCallRepl1 from by decide).trans (pipeline_keeps_R1 h)

/-- Witness for C10: the theorem applied at the pattern itself. -/
theorem C10_handle_retained_witness :
    (genCallPat <:+: genCallPat) ∧
    ("ai.getGenerativeModel(\x7b model: \"gemini-2.0-flash-exp\" \x7d);").toList
      <:+: fixAiCalls genCallPat :=
  ⟨List.infix_rfl, C10_handle_retained List.infix_rfl⟩

end FixAi
